import Mathlib

/-! # libgit2 `blob.c` and `fileops.c`: a shallow embedding

Bytes are natural numbers, C strings are lists of characters, and every
call into the operating system or into the object database is made
explicit: either as state passing over a model of the collaborator, or as
an entry in a call log.  Loops and recursions whose end depends on the
collaborator take a bound on their number of steps and return `none` when
the bound is reached; the theorems say for which bounds they return.
-/

namespace Libgit2

/-- An `unsigned char`. -/
abbrev Byte := Nat

/-! ## Buffered file snapshots (`git_fbuffer`) -/

/-- The `isspace` test of `<ctype.h>` in the "C" locale: space, and the
control characters `\t \n \v \f \r`. -/
def isspace (c : Byte) : Bool :=
  c == 32 || (9 ≤ c && c ≤ 13)

/-- The `git_fbuffer` record: `data` is the allocated block, `len` the
logical length.  A block produced by `git_futils_readbuffer_updated` has
`len + 1` bytes. -/
structure git_fbuffer where
  data : List Byte
  len : Nat
deriving DecidableEq, Repr

/-- The loop of `git_futils_fbuffer_rtrim`,
`while (obj->len > 0 && isspace(buff[obj->len - 1])) obj->len--;`,
as a recursion on the current value of `obj->len`. -/
def rtrim_loop (buff : List Byte) : Nat → Nat
  | 0 => 0
  | n + 1 => if isspace (buff.getD n 0) then rtrim_loop buff n else n + 1

/-- The function `git_futils_fbuffer_rtrim`: run the loop, then
`buff[obj->len] = '\0'`. -/
def git_futils_fbuffer_rtrim (obj : git_fbuffer) : git_fbuffer :=
  let len := rtrim_loop obj.data obj.len
  { data := obj.data.set len 0, len := len }

/-- A snapshot is NUL-terminated: index `len` is inside the block and
holds a zero byte. -/
def NulTerminated (obj : git_fbuffer) : Prop :=
  obj.data[obj.len]? = some 0

instance (obj : git_fbuffer) : Decidable (NulTerminated obj) := by
  unfold NulTerminated; infer_instance


/-! ## Error codes and error helpers

The header `git2/errors.h` and `errors.c` are not among the sources; the
values below are those of the `git_error` enumeration of this version of
the library.  `git__throw` and `git__rethrow` record a message and hand
their first argument back. -/

/-- Modelled from the spec: the code `GIT_SUCCESS` of `git2/errors.h`, the
result of an operation that succeeded. -/
def GIT_SUCCESS : Int := 0

/-- Modelled from the spec: the code `GIT_ERROR` of `git2/errors.h`, a negative
value ("a sentinel failure distinguishable from success"). -/
def GIT_ERROR : Int := -1

/-- Modelled from the spec: the code `GIT_ENOTFOUND` of `git2/errors.h`, a negative
value ("a sentinel failure distinguishable from success"). -/
def GIT_ENOTFOUND : Int := -3

/-- Modelled from the spec: the code `GIT_ENOMEM` of `git2/errors.h`, a negative
value ("a sentinel failure distinguishable from success"). -/
def GIT_ENOMEM : Int := -4

/-- Modelled from the spec: the code `GIT_EOSERR` of `git2/errors.h`, a negative
value ("a sentinel failure distinguishable from success"). -/
def GIT_EOSERR : Int := -5

/-- Modelled from the spec: `git__throw(code, msg)` sets the error message
and returns `code` ("operations return a sentinel failure"). -/
def git__throw (error : Int) : Int := error

/-- Modelled from the spec: `git__rethrow(error, msg)` annotates and
re-raises, returning `error` unchanged ("lower-level errors are never
swallowed, only annotated and re-raised"). -/
def git__rethrow (error : Int) : Int := error

/-- Modelled from the spec: `git_buf_joinpath` of `buffer.c`, the path join
("join ... assumed correct primitives").  With a non-empty first part the
leading separators of the second part are dropped and one separator is
inserted unless the first part already ends in one.  The returned code is
the error of the buffer, which the join never raises here. -/
def git_buf_joinpath (a b : List Char) : Int × List Char :=
  if a = [] then (GIT_SUCCESS, b)
  else
    (GIT_SUCCESS,
      a ++ (if a.getLast? = some '/' then [] else ['/']) ++ b.dropWhile (· == '/'))

/-! ## The object database write stream -/

/-- A content id. -/
abbrev git_oid := Nat

/-- One call made on the object database. -/
inductive OdbCall where
  /-- The call `git_odb_open_wstream(&stream, odb, len, GIT_OBJ_BLOB)`. -/
  | open_wstream (len : Nat)
  /-- The call `stream->write(stream, data, |data|)`. -/
  | write (data : List Byte)
  /-- The call `stream->finalize_write(oid, stream)`. -/
  | finalize_write
  /-- The call `stream->free(stream)`. -/
  | free
deriving DecidableEq, Repr

/-- The object database as an external collaborator with state `σ`: each
operation returns its `int` result and the next state.  `finalize_write`
also returns what it stored through the `oid` pointer, if anything. -/
structure git_odb (σ : Type) where
  open_wstream : σ → Nat → Int × σ
  write : σ → List Byte → Int × σ
  finalize_write : σ → Int × Option git_oid × σ
  free : σ → σ

/-- The part of `git_repository` the blob functions look at: the working
directory (`git_repository_workdir`, `none` for NULL) and the result of
`git_repository_odb__weakptr`. -/
structure git_repository where
  workdir : Option (List Char)
  odb_error : Int

/-- What a blob creation leaves behind: the returned `int`, the content of
the caller's `oid` (`none` when nothing was stored through the pointer),
the state of the object database and the calls made on it, in order. -/
structure BlobResult (σ : Type) where
  error : Int
  oid : Option git_oid
  odb : σ
  calls : List OdbCall

/-- The function `git_blob_create_frombuffer` (blob.c:41-66).  The C buffer
holds at least `len` bytes, of which the first `len` are written. -/
def git_blob_create_frombuffer {σ : Type} (B : git_odb σ) (repo : git_repository)
    (s : σ) (buffer : List Byte) (len : Nat) : BlobResult σ :=
  let error := repo.odb_error
  if error < GIT_SUCCESS then ⟨error, none, s, []⟩
  else
    let r1 := B.open_wstream s len
    if r1.1 < GIT_SUCCESS then
      ⟨git__rethrow r1.1, none, r1.2, [.open_wstream len]⟩
    else
      let r2 := B.write r1.2 (buffer.take len)
      if r2.1 < GIT_SUCCESS then
        ⟨r2.1, none, B.free r2.2, [.open_wstream len, .write (buffer.take len), .free]⟩
      else
        let r3 := B.finalize_write r2.2
        let s4 := B.free r3.2.2
        let calls := [.open_wstream len, .write (buffer.take len), .finalize_write, .free]
        if r3.1 < GIT_SUCCESS then ⟨git__rethrow r3.1, r3.2.1, s4, calls⟩
        else ⟨GIT_SUCCESS, r3.2.1, s4, calls⟩

/-! ### The operating system as seen by `git_blob_create_fromfile` -/

/-- The fields of `struct stat` the function reads. -/
structure Stat where
  st_size : Nat
  /-- The test `S_ISLNK(st_mode)`. -/
  is_lnk : Bool
deriving DecidableEq, Repr

/-- The outcome of `p_read` or `p_readlink`: a negative return value, or
the bytes stored in the buffer (the return value is their number). -/
inductive ReadResult where
  | error
  | ok (bytes : List Byte)
deriving DecidableEq, Repr

/-- The system calls of `git_blob_create_fromfile` over an operating-system
state `φ`.  `p_lstat` and `p_open` return `none` for a negative result;
`git__malloc` tells whether the allocation succeeded.  The state of the
system is not part of what the function returns, so `p_close` and `free`,
which only act on it, do not appear. -/
structure Posix (φ : Type) where
  p_lstat : φ → List Char → Option Stat
  git__malloc : φ → Nat → Bool
  p_readlink : φ → List Char → Nat → ReadResult
  p_open : φ → List Char → Option φ
  p_read : φ → Nat → ReadResult × φ

/-- How the read loop was left. -/
inductive LoopExit where
  /-- The condition `size > 0` became false. -/
  | done
  /-- The exit `goto cleanup` with this error. -/
  | failed (error : Int)
deriving DecidableEq, Repr

/-- The loop at blob.c:131-142,
`while (size > 0) { read_len = p_read(fd, buffer, sizeof(buffer)); ... }`,
with `sizeof(buffer) = 2048`.  The first argument bounds the number of
iterations; `none` means the bound was reached with `size > 0` still
true. -/
def blob_read_loop {σ φ : Type} (P : Posix φ) (B : git_odb σ) :
    Nat → Int → φ → σ → List OdbCall → Option (LoopExit × σ × List OdbCall)
  | 0, size, _, s, calls =>
    if size > 0 then none else some (.done, s, calls)
  | fuel + 1, size, fd, s, calls =>
    if size > 0 then
      match P.p_read fd 2048 with
      | (.error, _) => some (.failed (git__throw GIT_EOSERR), s, calls)
      | (.ok bytes, fd1) =>
        blob_read_loop P B fuel (size - bytes.length) fd1 (B.write s bytes).2
          (calls ++ [.write bytes])
    else some (.done, s, calls)

/-- Lines 147-155 of blob.c on the path through `finalize_write`: finalize,
free the stream, return the result of finalize. -/
def blob_finalize {σ : Type} (B : git_odb σ) (s : σ) (calls : List OdbCall) :
    BlobResult σ :=
  let r := B.finalize_write s
  ⟨r.1, r.2.1, B.free r.2.2, calls ++ [.finalize_write, .free]⟩

/-- The `cleanup` label reached by a `goto` after the stream was opened:
free the stream and return `error`. -/
def blob_cleanup {σ : Type} (B : git_odb σ) (error : Int) (s : σ)
    (calls : List OdbCall) : BlobResult σ :=
  ⟨error, none, B.free s, calls ++ [.free]⟩

/-- The function `git_blob_create_fromfile` (blob.c:68-156).  `fuel` bounds
the iterations of the read loop and `none` means the loop did not end
within the bound. -/
def git_blob_create_fromfile {σ φ : Type} (P : Posix φ) (B : git_odb σ) (fuel : Nat)
    (repo : git_repository) (w : φ) (s : σ) (path : List Char) :
    Option (BlobResult σ) :=
  match repo.workdir with
  | none => some ⟨git__throw GIT_ENOTFOUND, none, s, []⟩
  | some workdir =>
    let full_path := git_buf_joinpath workdir path
    if full_path.1 < GIT_SUCCESS then some ⟨full_path.1, none, s, []⟩
    else
      match P.p_lstat w full_path.2 with
      | none => some ⟨git__throw GIT_EOSERR, none, s, []⟩
      | some st =>
        if repo.odb_error < GIT_SUCCESS then some ⟨repo.odb_error, none, s, []⟩
        else
          let r1 := B.open_wstream s st.st_size
          let calls := [OdbCall.open_wstream st.st_size]
          if r1.1 < GIT_SUCCESS then some ⟨r1.1, none, r1.2, calls⟩
          else if st.is_lnk then
            if P.git__malloc w st.st_size = false then
              some (blob_cleanup B GIT_ENOMEM r1.2 calls)
            else
              match P.p_readlink w full_path.2 st.st_size with
              | .error => some (blob_cleanup B (git__throw GIT_EOSERR) r1.2 calls)
              | .ok link_data =>
                if link_data.length ≠ st.st_size then
                  some (blob_cleanup B (git__throw GIT_EOSERR) r1.2 calls)
                else
                  some (blob_finalize B (B.write r1.2 (link_data.take st.st_size)).2
                    (calls ++ [.write (link_data.take st.st_size)]))
          else
            match P.p_open w full_path.2 with
            | none => some (blob_cleanup B (git__throw GIT_ENOTFOUND) r1.2 calls)
            | some fd =>
              match blob_read_loop P B fuel st.st_size fd r1.2 calls with
              | none => none
              | some (.failed error, s2, calls2) => some (blob_cleanup B error s2 calls2)
              | some (.done, s2, calls2) => some (blob_finalize B s2 calls2)

/-! ### Reference collaborators -/

/-- A file (or symbolic link) as the system calls see it: what `lstat`
reported, the bytes the file holds when it is read (for a link, its target
string), and the offset of the open descriptor. -/
structure FileWorld where
  st : Stat
  content : List Byte
  pos : Nat
deriving DecidableEq, Repr

/-- Modelled from the spec: the POSIX calls on one file whose bytes do not
change while it is read.  `read` returns the next `min(count, remaining)`
bytes and advances the offset, returning no bytes at end of file;
`readlink` stores at most `bufsiz` bytes of the target. -/
def posixFile : Posix FileWorld where
  p_lstat w _ := some w.st
  git__malloc _ _ := true
  p_readlink w _ bufsiz := .ok (w.content.take bufsiz)
  p_open w _ := some { w with pos := 0 }
  p_read w count :=
    (.ok ((w.content.drop w.pos).take count),
      { w with pos := w.pos + ((w.content.drop w.pos).take count).length })

/-- An object database kept in memory: the stored objects, and the stream
being written (declared length and bytes so far). -/
structure MemOdb where
  objects : List (git_oid × List Byte)
  stream : Option (Nat × List Byte)

/-- Modelled from the spec: an object database that stores the bytes
written to a stream under the id computed at finalize ("exposes a
streaming-write abstraction and a content-id finalize operation"; the
total written must equal the declared length).  `hash` is the digest. -/
def memOdb (hash : List Byte → git_oid) : git_odb MemOdb where
  open_wstream s len := (GIT_SUCCESS, { s with stream := some (len, []) })
  write s data :=
    match s.stream with
    | some (n, acc) => (GIT_SUCCESS, { s with stream := some (n, acc ++ data) })
    | none => (GIT_ERROR, s)
  finalize_write s :=
    match s.stream with
    | some (n, acc) =>
      if acc.length = n then
        (GIT_SUCCESS, some (hash acc), { s with objects := (hash acc, acc) :: s.objects })
      else (GIT_ERROR, none, s)
    | none => (GIT_ERROR, none, s)
  free s := { s with stream := none }

/-- Reading an object back by id. -/
def MemOdb.read (s : MemOdb) (id : git_oid) : Option (List Byte) :=
  s.objects.lookup id

/-- A stream that accepts everything and always answers with the same id. -/
def nullOdb (id : git_oid) : git_odb Unit where
  open_wstream _ _ := (GIT_SUCCESS, ())
  write _ _ := (GIT_SUCCESS, ())
  finalize_write _ := (GIT_SUCCESS, some id, ())
  free _ := ()

/-- The return value of `p_read` or `p_readlink` as a number: `-1` for a
failure, else the number of bytes stored. -/
def ReadResult.count : ReadResult → Int
  | .error => -1
  | .ok bytes => bytes.length

/-! ## Whole-file reads (`git_futils_readbuffer_updated`) -/

/-- The value of `ENOENT`. -/
def ENOENT : Int := 2

/-- A canonical path: the component names from the root down. -/
abbrev Path := List (List Char)

/-- What an entry is. -/
inductive Kind where
  | dir
  | file
deriving DecidableEq, Repr

/-- The filesystem: its entries in directory-listing order, and the paths on
which `mkdir`, `rmdir` and `unlink` are refused for lack of permission. -/
structure FS where
  entries : List (Path × Kind)
  denied : List Path
deriving DecidableEq, Repr

/-- The value of `EACCES`. -/
def EACCES : Int := 13

/-- The value of `EEXIST`. -/
def EEXIST : Int := 17

/-- The value of `ENOTDIR`. -/
def ENOTDIR : Int := 20

/-- What a path names, if anything. -/
def FS.lookup (fs : FS) (p : Path) : Option Kind :=
  if p = [] then some .dir else fs.entries.lookup p

/-- The filesystem without the entry at `p`. -/
def FS.remove (fs : FS) (p : Path) : FS :=
  { fs with entries := fs.entries.filter (fun e => decide (e.1 ≠ p)) }

/-- No entry lies strictly below `p`.  In a tree, where the parent of every
entry is itself an entry, this is the same as `p` having no children. -/
def FS.isEmptyAt (fs : FS) (p : Path) : Bool :=
  fs.entries.all (fun e => !(decide (p <+: e.1) && decide (e.1 ≠ p)))

/-- The entries directly inside the directory `p`, in listing order. -/
def FS.children (fs : FS) (p : Path) : List Path :=
  ((fs.entries.map Prod.fst).filter
    (fun q => decide (q ≠ [] ∧ q.dropLast = p))).dedup

/-- The length of the longest canonical path among the entries. -/
def FS.depth (fs : FS) : Nat :=
  (fs.entries.map (fun e => e.1.length)).foldr max 0

/-- The test `git_path_isdir` on a path buffer kept in canonical form. -/
def FS.isdir (fs : FS) (p : Path) : Bool :=
  decide (fs.lookup p = some .dir)

/-- Splitting a path string at `/`; `cur` holds the characters of the name
being read, last first.  Empty names (repeated or trailing separators) are
dropped. -/
def componentsAux : List Char → List Char → Path
  | [], cur => if cur = [] then [] else [cur.reverse]
  | c :: cs, cur =>
    if c = '/' then
      if cur = [] then componentsAux cs [] else cur.reverse :: componentsAux cs []
    else componentsAux cs (c :: cur)

/-- The canonical path a path string resolves to. -/
def components (s : List Char) : Path := componentsAux s []

/-- Modelled from the spec: `git_path_isdir` of `path.c`, `stat` followed by
`S_ISDIR`.  A failing `stat` sets `errno`; the second component is the value
of `errno` after the call. -/
def git_path_isdir (fs : FS) (errno : Int) (path : List Char) : Bool × Int :=
  match fs.lookup (components path) with
  | some .dir => (true, errno)
  | some .file => (false, errno)
  | none => (false, ENOENT)

/-- Modelled from the spec: `p_mkdir`, the POSIX `mkdir`.  Returns the
result (0 or -1), the filesystem and `errno` after the call: an existing
entry of any kind gives `EEXIST`, a missing parent `ENOENT`, a parent that
is not a directory `ENOTDIR`, a refused path `EACCES`; a success leaves
`errno` as it was. -/
def p_mkdir (fs : FS) (errno : Int) (path : List Char) (_mode : Nat) :
    Int × FS × Int :=
  if path = [] then (-1, fs, ENOENT)
  else if fs.lookup (components path) ≠ none then (-1, fs, EEXIST)
  else
    match fs.lookup (components path).dropLast with
    | none => (-1, fs, ENOENT)
    | some .file => (-1, fs, ENOTDIR)
    | some .dir =>
      if components path ∈ fs.denied then (-1, fs, EACCES)
      else (0, { fs with entries := fs.entries ++ [(components path, .dir)] }, errno)

/-- A removal that succeeded. -/
inductive FsOp where
  | unlink (p : Path)
  | rmdir (p : Path)
deriving DecidableEq, Repr

/-- The path an operation removed. -/
def FsOp.path : FsOp → Path
  | .unlink p => p
  | .rmdir p => p

/-- Modelled from the spec: `p_rmdir`, the POSIX `rmdir`, on a canonical
path.  It succeeds on a permitted, empty directory other than the root,
which it removes; otherwise it returns -1 and changes nothing.  The list
holds the removal made, if any. -/
def p_rmdir (fs : FS) (p : Path) : Int × FS × List FsOp :=
  if fs.lookup p = some .dir ∧ p ≠ [] ∧ fs.isEmptyAt p = true ∧ p ∉ fs.denied then
    (0, fs.remove p, [.rmdir p])
  else (-1, fs, [])

/-- Modelled from the spec: `p_unlink`, the POSIX `unlink`, on a canonical
path.  It succeeds on a permitted entry that is not a directory, which it
removes; otherwise it returns -1 and changes nothing. -/
def p_unlink (fs : FS) (p : Path) : Int × FS × List FsOp :=
  if fs.lookup p = some .file ∧ p ∉ fs.denied then
    (0, fs.remove p, [.unlink p])
  else (-1, fs, [])

/-! ## Recursive directory creation (`git_futils_mkdir_r`) -/

/-- Modelled from the spec: `git_path_root` of `path.c` on a POSIX system
("skipping any drive/root prefix"): the offset of the root separator, 0 for
a path that starts with `/`, and -1 for a path that is not rooted. -/
def git_path_root (path : List Char) : Int :=
  if path.head? = some '/' then 0 else -1

/-- Modelled from the spec: `git_buf_puts` of `buffer.c`, appending a string
to a buffer; the first component is the error of the buffer. -/
def git_buf_puts (buf s : List Char) : Int × List Char :=
  (GIT_SUCCESS, buf ++ s)

/-- The search of `strchr(s, '/')` on the characters `s`, which start at
offset `i` of the whole string: the offset of the first separator. -/
def strchr_from : List Char → Nat → Option Nat
  | [], _ => none
  | c :: cs, i => if c = '/' then some i else strchr_from cs (i + 1)

/-- The call `strchr(pp, '/')` where `pp` is at offset `pp` of `s`: the
offset in `s` of the first separator at or after `pp`, `none` for NULL. -/
def strchr (s : List Char) (pp : Nat) : Option Nat :=
  strchr_from (s.drop pp) pp

/-- The variables of `git_futils_mkdir_r` that change in its loop: `error`,
the offset of `pp` in `make_path`, the filesystem, `errno`, and (for the
record) the `p_mkdir` calls made so far with their result and the `errno`
they left. -/
structure MkdirState where
  error : Int
  pp : Nat
  fs : FS
  errno : Int
  calls : List (List Char × Int × Int)
deriving DecidableEq, Repr

/-- One `p_mkdir(target, mode)` followed by
`if (errno == EEXIST) error = GIT_SUCCESS;`. -/
def mkdir_step (st : MkdirState) (errno : Int) (target : List Char) (mode : Nat) :
    MkdirState :=
  let r := p_mkdir st.fs errno target mode
  { st with
    error := if r.2.2 = EEXIST then GIT_SUCCESS else r.1
    fs := r.2.1
    errno := r.2.2
    calls := st.calls ++ [(target, r.1, r.2.2)] }

/-- The body of the loop at fileops.c:216-227 with `sp` found: the state
handed to the next iteration. -/
def mkdir_r_body (make_path : List Char) (mode : Nat) (st : MkdirState) (sp : Nat) :
    MkdirState :=
  if sp ≠ st.pp then
    let d := git_path_isdir st.fs st.errno make_path
    if d.1 = false then
      { mkdir_step st d.2 (make_path.take sp) mode with pp := sp + 1 }
    else { st with errno := d.2, pp := sp + 1 }
  else { st with pp := sp + 1 }

/-- The loop at fileops.c:215-228,
`while (error == GIT_SUCCESS && (sp = strchr(pp, '/')) != NULL) { ... }`.
Writing NUL at `sp` makes `make_path.ptr` the first `sp` characters.  The
first argument bounds the number of iterations; `none` means the bound was
reached with the loop condition still true. -/
def mkdir_r_loop (make_path : List Char) (mode : Nat) :
    Nat → MkdirState → Option MkdirState
  | 0, st =>
    if st.error = GIT_SUCCESS then
      match strchr make_path st.pp with
      | none => some st
      | some _ => none
    else some st
  | fuel + 1, st =>
    if st.error = GIT_SUCCESS then
      match strchr make_path st.pp with
      | none => some st
      | some sp => mkdir_r_loop make_path mode fuel (mkdir_r_body make_path mode st sp)
    else some st

/-- Lines 199-205 of fileops.c: `start`, the error of the buffer and the
path to make, from `base` (`none` for NULL) and `path`. -/
def mkdir_r_path (path : List Char) (base : Option (List Char)) :
    Nat × Int × List Char :=
  match base with
  | some b => (b.length, git_buf_joinpath b path)
  | none => (0, git_buf_puts [] path)

/-- What `git_futils_mkdir_r` leaves behind. -/
structure MkdirResult where
  ret : Int
  fs : FS
  errno : Int
  calls : List (List Char × Int × Int)
deriving DecidableEq, Repr

/-- The function `git_futils_mkdir_r` (fileops.c:192-242); `base` is `none`
for NULL and `errno` is the value of `errno` on entry.  The loop runs at
most once per character of the path, so it is given that many iterations
and one more; `none` would mean that they did not suffice. -/
def git_futils_mkdir_r (fs : FS) (errno : Int) (path : List Char)
    (base : Option (List Char)) (mode : Nat) : Option MkdirResult :=
  let start := (mkdir_r_path path base).1
  let error := (mkdir_r_path path base).2.1
  let make_path := (mkdir_r_path path base).2.2
  if error < GIT_SUCCESS then some ⟨git__rethrow error, fs, errno, []⟩
  else
    let root_path_offset := git_path_root make_path
    let pp := if root_path_offset > 0 then start + root_path_offset.toNat else start
    match mkdir_r_loop make_path mode (make_path.length + 1) ⟨error, pp, fs, errno, []⟩ with
    | none => none
    | some st =>
      let st :=
        if st.pp < make_path.length ∧ st.error = GIT_SUCCESS then
          mkdir_step st st.errno make_path mode
        else st
      if st.error < GIT_SUCCESS then some ⟨git__throw st.error, st.fs, st.errno, st.calls⟩
      else some ⟨GIT_SUCCESS, st.fs, st.errno, st.calls⟩

/-! ## Recursive directory removal (`git_futils_rmdir_r`) -/

/-- The loop of `git_path_direach` over the entries `children` of a
directory: call `fn` on each, stop at the first result that is not
`GIT_SUCCESS` and return it.  `none` is a callback that did not return. -/
def direach_loop (fn : FS → Path → Option (Int × FS × List FsOp)) :
    FS → List Path → Option (Int × FS × List FsOp)
  | fs, [] => some (GIT_SUCCESS, fs, [])
  | fs, c :: cs =>
    match fn fs c with
    | none => none
    | some (result, fs1, ops1) =>
      if result ≠ GIT_SUCCESS then some (result, fs1, ops1)
      else
        match direach_loop fn fs1 cs with
        | none => none
        | some (result2, fs2, ops2) => some (result2, fs2, ops1 ++ ops2)

/-- Modelled from the spec: `git_path_direach` of `path.c`: read the entries
of the directory, then call `fn` on the path of each ("recurse into every
entry"; "traversal order is unspecified among siblings"). -/
def git_path_direach (fn : FS → Path → Option (Int × FS × List FsOp))
    (fs : FS) (path : Path) : Option (Int × FS × List FsOp) :=
  direach_loop fn fs (fs.children path)

/-- The function `_rmdir_recurs_foreach` (fileops.c:244-260); the path
buffer is kept in canonical form.  The first argument bounds the depth of the recursion and `none`
means the bound was reached.  The result is the returned `int`, the
filesystem afterwards and the removals made, in order. -/
def _rmdir_recurs_foreach : Nat → Bool → FS → Path → Option (Int × FS × List FsOp)
  | 0, _, _, _ => none
  | fuel + 1, force, fs, path =>
    let error := GIT_SUCCESS
    if fs.isdir path = true then
      match git_path_direach (_rmdir_recurs_foreach fuel force) fs path with
      | none => none
      | some (error, fs1, ops1) =>
        if error < GIT_SUCCESS then some (git__rethrow error, fs1, ops1)
        else
          let r := p_rmdir fs1 path
          some (r.1, r.2.1, ops1 ++ r.2.2)
    else if force = true then some (p_unlink fs path)
    else some (git__rethrow error, fs, [])

/-- Modelled from the spec: `git_buf_sets` of `buffer.c`, setting a buffer
to a string; the first component is the error of the buffer. -/
def git_buf_sets (s : List Char) : Int × List Char :=
  (GIT_SUCCESS, s)

/-- The function `git_futils_rmdir_r` (fileops.c:262-272): the path string is
copied into a buffer, which is handed to `_rmdir_recurs_foreach`; the buffer
is kept in canonical form from there on. -/
def git_futils_rmdir_r (fuel : Nat) (fs : FS) (path : List Char) (force : Bool) :
    Option (Int × FS × List FsOp) :=
  let p := git_buf_sets path
  if p.1 = GIT_SUCCESS then _rmdir_recurs_foreach fuel force fs (components p.2)
  else some (p.1, fs, [])

/-- The filesystem `fs2` is `fs` without the entries removed by `ops`. -/
def Removed (fs fs2 : FS) (ops : List FsOp) : Prop :=
  fs2.entries = fs.entries.filter (fun e => decide (e.1 ∉ ops.map FsOp.path)) ∧
    fs2.denied = fs.denied

/-- Post-order: whenever `ops` removes a directory `d`, every entry that
`fs` had strictly below `d` was removed by an earlier operation. -/
def PostOrder (fs : FS) (ops : List FsOp) : Prop :=
  ∀ (t1 : List FsOp) (d : Path) (t2 : List FsOp), ops = t1 ++ FsOp.rmdir d :: t2 →
    ∀ e ∈ fs.entries, d <+: e.1 → e.1 ≠ d → e.1 ∈ t1.map FsOp.path

/-- The path `q` is a non-directory entry or has one below it. -/
def HoldsFile (fs : FS) (q : Path) : Prop :=
  ∃ f, q <+: f ∧ fs.lookup f = some .file

/-! # Theorems -/

/-! ### Lemmas on the trim loop -/

theorem rtrim_loop_le (buff : List Byte) (n : Nat) : rtrim_loop buff n ≤ n := by
  induction n with
  | zero => simp [rtrim_loop]
  | succ n ih =>
    unfold rtrim_loop
    split
    · exact Nat.le_succ_of_le ih
    · exact Nat.le_refl _

/-- Where the loop stops, either the length is zero or the last byte is
not whitespace. -/
theorem rtrim_loop_stop (buff : List Byte) (n : Nat) :
    rtrim_loop buff n = 0 ∨
      isspace (buff.getD (rtrim_loop buff n - 1) 0) = false := by
  induction n with
  | zero => left; simp [rtrim_loop]
  | succ n ih =>
    unfold rtrim_loop
    split
    · exact ih
    · right; simpa using ‹¬ isspace (buff.getD n 0) = true›

/-- The loop does not move when it starts at a stopping point. -/
theorem rtrim_loop_fixed (buff : List Byte) (n : Nat)
    (h : n = 0 ∨ isspace (buff.getD (n - 1) 0) = false) :
    rtrim_loop buff n = n := by
  cases n with
  | zero => simp [rtrim_loop]
  | succ n =>
    rcases h with h | h
    · omega
    · simp at h
      simp [rtrim_loop, h]

theorem getD_set_ne (l : List Byte) (i j : Nat) (v : Byte) (h : i ≠ j) :
    (l.set i v).getD j 0 = l.getD j 0 := by
  simp [List.getD, List.getElem?_set_ne h]

theorem set_same_of_get (l : List Byte) (i : Nat) (v : Byte)
    (h : l[i]? = some v) : l.set i v = l := by
  apply List.ext_getElem?
  intro j
  by_cases hij : i = j
  · subst hij
    rw [h]
    have hlt : i < l.length := by
      rcases Nat.lt_or_ge i l.length with hl | hl
      · exact hl
      · rw [List.getElem?_eq_none hl] at h; cases h
    simp [List.getElem?_set, hlt]
  · simp [List.getElem?_set_ne hij]

/-! ### C5 -/

/-- C5. On a NUL-terminated snapshot `git_futils_fbuffer_rtrim` is
idempotent (trimming twice gives the same record, length and bytes, as
trimming once); when the snapshot is empty or its last byte is not
whitespace it changes nothing; and in every case the new length is at
most the old one, the bytes below the new length are unchanged and the
byte at the new length is NUL. -/
theorem fbuffer_rtrim_idempotent (obj : git_fbuffer) (h : NulTerminated obj) :
    git_futils_fbuffer_rtrim (git_futils_fbuffer_rtrim obj)
        = git_futils_fbuffer_rtrim obj ∧
      ((obj.len = 0 ∨ isspace (obj.data.getD (obj.len - 1) 0) = false) →
        git_futils_fbuffer_rtrim obj = obj) ∧
      (git_futils_fbuffer_rtrim obj).len ≤ obj.len ∧
      (∀ i, i < (git_futils_fbuffer_rtrim obj).len →
        (git_futils_fbuffer_rtrim obj).data[i]? = obj.data[i]?) ∧
      NulTerminated (git_futils_fbuffer_rtrim obj) := by
  have hle := rtrim_loop_le obj.data obj.len
  have hlen : obj.len < obj.data.length := by
    unfold NulTerminated at h
    rcases Nat.lt_or_ge obj.len obj.data.length with hl | hl
    · exact hl
    · rw [List.getElem?_eq_none hl] at h; cases h
  refine ⟨?_, ?_, hle, ?_, ?_⟩
  · -- idempotence
    have hstop := rtrim_loop_stop obj.data obj.len
    have hfix : rtrim_loop (obj.data.set (rtrim_loop obj.data obj.len) 0)
        (rtrim_loop obj.data obj.len) = rtrim_loop obj.data obj.len := by
      apply rtrim_loop_fixed
      rcases hstop with h0 | h1
      · left; exact h0
      · by_cases hz : rtrim_loop obj.data obj.len = 0
        · left; exact hz
        · right
          rw [getD_set_ne _ _ _ _ (by omega)]
          exact h1
    simp only [git_futils_fbuffer_rtrim, hfix]
    congr 1
    apply set_same_of_get
    have : rtrim_loop obj.data obj.len < obj.data.length := by omega
    simp [List.getElem?_set, this]
  · -- no trailing whitespace: nothing changes
    intro hno
    have hfix := rtrim_loop_fixed obj.data obj.len hno
    simp only [git_futils_fbuffer_rtrim, hfix]
    cases obj with
    | mk data len =>
      simp only [git_fbuffer.mk.injEq, and_true]
      exact set_same_of_get data len 0 h
  · intro i hi
    simp only [git_futils_fbuffer_rtrim] at hi ⊢
    exact List.getElem?_set_ne (by omega)
  · unfold NulTerminated
    simp only [git_futils_fbuffer_rtrim]
    have : rtrim_loop obj.data obj.len < obj.data.length := by omega
    simp [List.getElem?_set, this]

/-- Witness for C5: the snapshot `"a \n"` followed by its terminator. -/
theorem fbuffer_rtrim_idempotent_witness :
    NulTerminated ⟨[97, 32, 10, 0], 3⟩ ∧
      git_futils_fbuffer_rtrim ⟨[97, 32, 10, 0], 3⟩ = ⟨[97, 0, 10, 0], 1⟩ ∧
      git_futils_fbuffer_rtrim (git_futils_fbuffer_rtrim ⟨[97, 32, 10, 0], 3⟩)
        = git_futils_fbuffer_rtrim ⟨[97, 32, 10, 0], 3⟩ :=
  ⟨by decide, by decide,
    (fbuffer_rtrim_idempotent ⟨[97, 32, 10, 0], 3⟩ (by decide)).1⟩


/-! ## Blob creation -/

/-- C1. For every buffer of length `len`, over every object database:
when the repository has a database and opening the stream, the write and
the finalize all succeed, `git_blob_create_frombuffer` makes exactly the
calls open (declared at `len`), one write of the whole buffer, finalize and
free, and returns `GIT_SUCCESS` with the id produced by finalize.  Over the
in-memory database, which stores the written bytes under the finalized id,
the call succeeds and reading the returned id back yields the buffer. -/
theorem blob_create_frombuffer_roundtrip {σ : Type} (B : git_odb σ)
    (repo : git_repository) (s : σ) (buffer : List Byte) (len : Nat)
    (hlen : buffer.length = len)
    (hodb : ¬ repo.odb_error < GIT_SUCCESS)
    (hopen : ¬ (B.open_wstream s len).1 < GIT_SUCCESS)
    (hwrite : ¬ (B.write (B.open_wstream s len).2 buffer).1 < GIT_SUCCESS)
    (hfin : ¬ (B.finalize_write
        (B.write (B.open_wstream s len).2 buffer).2).1 < GIT_SUCCESS) :
    ((git_blob_create_frombuffer B repo s buffer len).error = GIT_SUCCESS ∧
      (git_blob_create_frombuffer B repo s buffer len).oid
        = (B.finalize_write (B.write (B.open_wstream s len).2 buffer).2).2.1 ∧
      (git_blob_create_frombuffer B repo s buffer len).calls
        = [.open_wstream len, .write buffer, .finalize_write, .free]) ∧
    (∀ (hash : List Byte → git_oid) (objects : List (git_oid × List Byte)),
      (git_blob_create_frombuffer (memOdb hash) repo ⟨objects, none⟩ buffer len).error
          = GIT_SUCCESS ∧
        ∃ id, (git_blob_create_frombuffer (memOdb hash) repo ⟨objects, none⟩
            buffer len).oid = some id ∧
          (git_blob_create_frombuffer (memOdb hash) repo ⟨objects, none⟩
            buffer len).odb.read id = some buffer) := by
  have htake : buffer.take len = buffer := by
    rw [← hlen]; exact List.take_length _
  constructor
  · simp only [git_blob_create_frombuffer, htake, if_neg hodb, if_neg hopen,
      if_neg hwrite, if_neg hfin, and_self]
  · intro hash objects
    have hodb0 : ¬ repo.odb_error < 0 := hodb
    refine ⟨?_, hash buffer, ?_, ?_⟩ <;>
      simp [git_blob_create_frombuffer, htake, hodb0, memOdb, GIT_SUCCESS,
        GIT_ERROR, git__rethrow, hlen, MemOdb.read, List.lookup]

/-- Witness for C1: the one-byte buffer `[7]` over the stream that accepts
everything. -/
theorem blob_create_frombuffer_roundtrip_witness :
    (git_blob_create_frombuffer (nullOdb 5) ⟨none, 0⟩ () [7] 1).calls
        = [.open_wstream 1, .write [7], .finalize_write, .free] ∧
      (git_blob_create_frombuffer (memOdb List.sum) ⟨none, 0⟩ ⟨[], none⟩ [7] 1).odb.read 7
        = some [7] :=
  ⟨(blob_create_frombuffer_roundtrip (nullOdb 5) ⟨none, 0⟩ () [7] 1 rfl
      (by decide) (by decide) (by decide) (by decide)).1.2.2,
    by decide⟩

/-! ### The chunked read loop on a file that does not change -/

theorem posixFile_read (w : FileWorld) (count : Nat) :
    posixFile.p_read w count
      = (.ok ((w.content.drop w.pos).take count),
          { w with pos := w.pos + ((w.content.drop w.pos).take count).length }) := rfl

theorem posixFile_lstat (w : FileWorld) (p : List Char) :
    posixFile.p_lstat w p = some w.st := rfl

theorem posixFile_open (w : FileWorld) (p : List Char) :
    posixFile.p_open w p = some { w with pos := 0 } := rfl

theorem joinpath_ok (a b : List Char) : ¬ (git_buf_joinpath a b).1 < GIT_SUCCESS := by
  unfold git_buf_joinpath; split <;> simp

theorem nullOdb_open (id : git_oid) (s : Unit) (n : Nat) :
    (nullOdb id).open_wstream s n = (GIT_SUCCESS, ()) := rfl

theorem blob_read_loop_eof {σ : Type} (B : git_odb σ) (st : Stat) :
    ∀ (fuel : Nat) (size : Int) (s : σ) (calls : List OdbCall), size > 0 →
      blob_read_loop posixFile B fuel size ⟨st, [], 0⟩ s calls = none := by
  intro fuel
  induction fuel with
  | zero => intro size s calls h; simp [blob_read_loop, h]
  | succ fuel ih =>
    intro size s calls h
    simp only [blob_read_loop, if_pos h, posixFile_read]
    simpa using ih size _ _ h

/-- C10, the code at two files that changed after `lstat`.  A file reported
at one byte and empty when read: every read returns no bytes, `size` stays
at one, and for every iteration bound the loop has not ended, so finalize is
never reached.  A file reported at one byte and holding three when read:
the single read returns three bytes and all three are written to the stream
declared at one byte. -/
theorem blob_create_fromfile_size_drift :
    (∀ fuel, git_blob_create_fromfile posixFile (nullOdb 0) fuel ⟨some ['/', 'w'], 0⟩
        ⟨⟨1, false⟩, [], 0⟩ () ['f'] = none) ∧
    (∀ fuel, 1 ≤ fuel →
      (git_blob_create_fromfile posixFile (nullOdb 0) fuel ⟨some ['/', 'w'], 0⟩
        ⟨⟨1, false⟩, [1, 2, 3], 0⟩ () ['f']).map BlobResult.calls
      = some [.open_wstream 1, .write [1, 2, 3], .finalize_write, .free]) := by
  have hj := joinpath_ok ['/', 'w'] ['f']
  constructor
  · intro fuel
    have h := blob_read_loop_eof (nullOdb 0) ⟨1, false⟩ fuel 1 () [.open_wstream 1]
      (by decide)
    simp only [git_blob_create_fromfile, if_neg hj, posixFile_lstat, posixFile_open,
      nullOdb_open]
    have h0 : ¬ (0 : Int) < GIT_SUCCESS := by decide
    have h1 : ¬ GIT_SUCCESS < GIT_SUCCESS := by decide
    simp only [if_neg h0, if_neg h1, Bool.false_eq_true, if_false, Nat.cast_one, h]
  · intro fuel hfuel
    obtain ⟨n, rfl⟩ : ∃ n, fuel = n + 1 := ⟨fuel - 1, by omega⟩
    simp only [git_blob_create_fromfile, if_neg hj, posixFile_lstat, posixFile_open,
      nullOdb_open]
    cases n <;>
      simp [GIT_SUCCESS, blob_read_loop, posixFile_read, blob_finalize]

/-! ## Whole-file reads -/

theorem strchr_from_bounds : ∀ (l : List Char) (i sp : Nat),
    strchr_from l i = some sp → i ≤ sp ∧ sp < i + l.length := by
  intro l
  induction l with
  | nil => intro i sp h; simp [strchr_from] at h
  | cons c cs ih =>
    intro i sp h
    unfold strchr_from at h
    split at h
    · simp at h; subst h; simp
    · have := ih (i + 1) sp h
      simp only [List.length_cons]
      omega

theorem strchr_bounds (s : List Char) (pp sp : Nat) (h : strchr s pp = some sp) :
    pp ≤ sp ∧ sp < s.length := by
  unfold strchr at h
  have hb := strchr_from_bounds _ _ _ h
  rw [List.length_drop] at hb
  omega

/-- When the whole path is a directory the loop creates nothing: it ends
with the state it started from, `pp` and `errno` apart. -/
theorem mkdir_r_loop_existing (make_path : List Char) (mode : Nat) (fs : FS)
    (h : fs.lookup (components make_path) = some .dir) :
    ∀ (fuel : Nat) (st : MkdirState),
      st.fs = fs → st.error = GIT_SUCCESS → st.calls = [] →
      make_path.length + 1 ≤ fuel + st.pp →
      ∃ st2, mkdir_r_loop make_path mode fuel st = some st2 ∧
        st2.fs = fs ∧ st2.error = GIT_SUCCESS ∧ st2.calls = [] := by
  intro fuel
  induction fuel with
  | zero =>
    intro st hfs herr hcalls hfuel
    have hnone : strchr make_path st.pp = none := by
      cases hs : strchr make_path st.pp with
      | none => rfl
      | some sp => have := strchr_bounds _ _ _ hs; omega
    exact ⟨st, by simp [mkdir_r_loop, herr, hnone], hfs, herr, hcalls⟩
  | succ fuel ih =>
    intro st hfs herr hcalls hfuel
    cases hs : strchr make_path st.pp with
    | none => exact ⟨st, by simp [mkdir_r_loop, herr, hs], hfs, herr, hcalls⟩
    | some sp =>
      have hb := strchr_bounds _ _ _ hs
      have hd : git_path_isdir fs st.errno make_path = (true, st.errno) := by
        simp [git_path_isdir, h]
      have hbody : (mkdir_r_body make_path mode st sp).fs = fs ∧
          (mkdir_r_body make_path mode st sp).error = GIT_SUCCESS ∧
          (mkdir_r_body make_path mode st sp).calls = [] ∧
          (mkdir_r_body make_path mode st sp).pp = sp + 1 := by
        unfold mkdir_r_body
        by_cases hsp : sp = st.pp
        · simp [hsp, hfs, herr, hcalls]
        · simp [hsp, hd, hfs, herr, hcalls]
      obtain ⟨st2, hrun, h2⟩ := ih (mkdir_r_body make_path mode st sp)
        hbody.1 hbody.2.1 hbody.2.2.1 (by rw [hbody.2.2.2]; omega)
      exact ⟨st2, by simp [mkdir_r_loop, herr, hs, hrun], h2⟩

/-- C6. For every path, with or without a base, whose full name (the base
joined with the path) is an existing directory, as it is when every
component down to the leaf is one, `git_futils_mkdir_r` returns
`GIT_SUCCESS` and leaves the filesystem unchanged; every `p_mkdir` it
issued returned -1 with `errno` set to `EEXIST`. -/
theorem mkdir_r_existing_chain (fs : FS) (errno : Int) (path : List Char)
    (base : Option (List Char)) (mode : Nat)
    (h : fs.lookup (components (mkdir_r_path path base).2.2) = some .dir) :
    ∃ r, git_futils_mkdir_r fs errno path base mode = some r ∧
      r.ret = GIT_SUCCESS ∧ r.fs = fs ∧
      ∀ c ∈ r.calls, c.2.1 = -1 ∧ c.2.2 = EEXIST := by
  have hj1 : (mkdir_r_path path base).2.1 = GIT_SUCCESS := by
    cases base with
    | none => rfl
    | some b => simp only [mkdir_r_path, git_buf_joinpath]; split <;> rfl
  have hnl : ¬ (mkdir_r_path path base).2.1 < GIT_SUCCESS := by rw [hj1]; decide
  obtain ⟨st2, hrun, hfs2, herr2, hcalls2⟩ :=
    mkdir_r_loop_existing (mkdir_r_path path base).2.2 mode fs h
      ((mkdir_r_path path base).2.2.length + 1)
      ⟨(mkdir_r_path path base).2.1,
        (if git_path_root (mkdir_r_path path base).2.2 > 0
          then (mkdir_r_path path base).1
            + (git_path_root (mkdir_r_path path base).2.2).toNat
          else (mkdir_r_path path base).1), fs, errno, []⟩ rfl hj1 rfl
      (by simp only; omega)
  have hmk : ∀ e, p_mkdir fs e (mkdir_r_path path base).2.2 mode
      = if (mkdir_r_path path base).2.2 = [] then (-1, fs, ENOENT)
        else (-1, fs, EEXIST) := by
    intro e; simp [p_mkdir, h]
  simp only [git_futils_mkdir_r, if_neg hnl, hrun]
  by_cases hpp : st2.pp < (mkdir_r_path path base).2.2.length
  · have hne : (mkdir_r_path path base).2.2 ≠ [] := by
      intro h0; rw [h0] at hpp; simp at hpp
    simp [hpp, herr2, mkdir_step, hfs2, hmk, hne, hcalls2, GIT_SUCCESS]
  · simp [hpp, herr2, hfs2, hcalls2, GIT_SUCCESS]

/-- Witness for C6: `/a/b` exists, and is asked for from the base `/a`. -/
theorem mkdir_r_existing_chain_witness :
    ∃ r, git_futils_mkdir_r ⟨[([['a']], .dir), ([['a'], ['b']], .dir)], []⟩ 0
          ['b'] (some ['/', 'a']) 493 = some r ∧
      r.ret = GIT_SUCCESS ∧
      r.fs = ⟨[([['a']], .dir), ([['a'], ['b']], .dir)], []⟩ ∧
      ∀ c ∈ r.calls, c.2.1 = -1 ∧ c.2.2 = EEXIST :=
  mkdir_r_existing_chain ⟨[([['a']], .dir), ([['a'], ['b']], .dir)], []⟩ 0
    ['b'] (some ['/', 'a']) 493 (by decide)

/-- C7, the code where the leaf exists as a regular file: with `/a` a
directory and `/a/f` a regular file, `git_futils_mkdir_r("/a/f", NULL)`
issues `p_mkdir("/a")` and `p_mkdir("/a/f")`, both of which fail with
`EEXIST`, and returns `GIT_SUCCESS`; the filesystem is unchanged and `/a/f`
is still a regular file. -/
theorem mkdir_r_leaf_is_file :
    git_futils_mkdir_r ⟨[([['a']], .dir), ([['a'], ['f']], .file)], []⟩ 0
        ['/', 'a', '/', 'f'] none 493
      = some ⟨GIT_SUCCESS, ⟨[([['a']], .dir), ([['a'], ['f']], .file)], []⟩, EEXIST,
          [(['/', 'a'], -1, EEXIST), (['/', 'a', '/', 'f'], -1, EEXIST)]⟩ ∧
    FS.lookup ⟨[([['a']], .dir), ([['a'], ['f']], .file)], []⟩ [['a'], ['f']]
      = some .file := by
  decide

/-! ## Recursive directory removal -/

/-! ### Lookup in a filtered list of entries -/

theorem lookup_filter_keep (S : Path → Bool) (q : Path) (hq : S q = true) :
    ∀ l : List (Path × Kind), (l.filter (fun e => S e.1)).lookup q = l.lookup q := by
  intro l
  induction l with
  | nil => rfl
  | cons e t ih =>
    obtain ⟨k, v⟩ := e
    by_cases hk : S k = true
    · rw [List.filter_cons_of_pos (by simpa using hk)]
      simp only [List.lookup_cons, ih]
    · have hne : (q == k) = false := by
        apply beq_false_of_ne
        intro h; rw [h] at hq; exact hk hq
      rw [List.filter_cons_of_neg (by simpa using hk)]
      simp only [List.lookup_cons, hne, ih]

theorem lookup_filter_drop (S : Path → Bool) (q : Path) (hq : S q = false) :
    ∀ l : List (Path × Kind), (l.filter (fun e => S e.1)).lookup q = none := by
  intro l
  induction l with
  | nil => rfl
  | cons e t ih =>
    obtain ⟨k, v⟩ := e
    by_cases hk : S k = true
    · have hne : (q == k) = false := by
        apply beq_false_of_ne
        intro h; rw [h, hk] at hq; cases hq
      rw [List.filter_cons_of_pos (by simpa using hk)]
      simp only [List.lookup_cons, hne, ih]
    · rw [List.filter_cons_of_neg (by simpa using hk)]
      exact ih

theorem lookup_some_mem (q : Path) (v : Kind) :
    ∀ l : List (Path × Kind), l.lookup q = some v → (q, v) ∈ l := by
  intro l
  induction l with
  | nil => intro h; simp at h
  | cons e t ih =>
    obtain ⟨k, w⟩ := e
    intro h
    rw [List.lookup_cons] at h
    by_cases hqk : (q == k) = true
    · rw [hqk] at h
      simp only [Option.some.injEq] at h
      have : q = k := by simpa using hqk
      rw [this, h]; exact List.mem_cons_self _ _
    · have hf : (q == k) = false := by simpa using hqk
      rw [hf] at h
      exact List.mem_cons_of_mem _ (ih h)

theorem lookup_remove_ne (fs : FS) (p q : Path) (h : q ≠ p) :
    (fs.remove p).lookup q = fs.lookup q := by
  unfold FS.lookup FS.remove
  by_cases hq : q = []
  · simp [hq]
  · simp only [if_neg hq]
    exact lookup_filter_keep (fun k => decide (k ≠ p)) q (by simpa using h) fs.entries

theorem lookup_remove_self (fs : FS) (p : Path) (h : p ≠ []) :
    (fs.remove p).lookup p = none := by
  unfold FS.lookup FS.remove
  simp only [if_neg h]
  exact lookup_filter_drop (fun k => decide (k ≠ p)) p (by simp) fs.entries

/-- An entry that can be looked up is listed. -/
theorem lookup_file_mem (fs : FS) (f : Path) (h : fs.lookup f = some .file) :
    (f, Kind.file) ∈ fs.entries := by
  unfold FS.lookup at h
  by_cases hf : f = []
  · simp [hf] at h
  · rw [if_neg hf] at h
    exact lookup_some_mem f _ _ h

theorem lookup_none_of_not_listed (fs : FS) (q : Path) (hq : q ≠ [])
    (h : ∀ e ∈ fs.entries, e.1 ≠ q) : fs.lookup q = none := by
  unfold FS.lookup
  rw [if_neg hq]
  cases hl : fs.entries.lookup q with
  | none => rfl
  | some v => exact absurd rfl (h _ (lookup_some_mem q v _ hl))

theorem isEmptyAt_iff (fs : FS) (p : Path) :
    fs.isEmptyAt p = true ↔ ∀ e ∈ fs.entries, p <+: e.1 → e.1 = p := by
  unfold FS.isEmptyAt
  rw [List.all_eq_true]
  constructor
  · intro h e he hp
    have := h e he
    simp only [Bool.not_eq_true', Bool.and_eq_false_iff, decide_eq_false_iff_not,
      ne_eq, Decidable.not_not] at this
    rcases this with h1 | h1
    · exact absurd hp h1
    · exact h1
  · intro h e he
    simp only [Bool.not_eq_true', Bool.and_eq_false_iff, decide_eq_false_iff_not,
      ne_eq, Decidable.not_not]
    by_cases hp : p <+: e.1
    · right; exact h e he hp
    · left; exact hp

/-! ### The two removals -/

theorem p_rmdir_cases (fs : FS) (p : Path) :
    (p_rmdir fs p = (0, fs.remove p, [.rmdir p]) ∧
      fs.lookup p = some .dir ∧ p ≠ [] ∧ fs.isEmptyAt p = true ∧ p ∉ fs.denied) ∨
    p_rmdir fs p = (-1, fs, []) := by
  unfold p_rmdir
  split
  · left; exact ⟨rfl, ‹_›⟩
  · right; rfl

theorem p_unlink_cases (fs : FS) (p : Path) :
    (p_unlink fs p = (0, fs.remove p, [.unlink p]) ∧
      fs.lookup p = some .file ∧ p ∉ fs.denied) ∨
    p_unlink fs p = (-1, fs, []) := by
  unfold p_unlink
  split
  · left; exact ⟨rfl, ‹_›⟩
  · right; rfl

/-! ### Invariants of the traversal -/

/-- A property of (filesystem before, filesystem after, removals made) that
holds of no step and composes holds of a whole `direach` loop when it holds
of each callback. -/
theorem direach_loop_inv (Q : FS → FS → List FsOp → Prop)
    (fn : FS → Path → Option (Int × FS × List FsOp))
    (hrefl : ∀ fs, Q fs fs [])
    (htrans : ∀ a b c t1 t2, Q a b t1 → Q b c t2 → Q a c (t1 ++ t2)) :
    ∀ (cs : List Path) (fs : FS) (r : Int) (fs2 : FS) (ops : List FsOp),
      (∀ c ∈ cs, ∀ fs0 r0 fs1 ops1, fn fs0 c = some (r0, fs1, ops1) → Q fs0 fs1 ops1) →
      direach_loop fn fs cs = some (r, fs2, ops) → Q fs fs2 ops := by
  intro cs
  induction cs with
  | nil =>
    intro fs r fs2 ops _ h
    simp only [direach_loop, Option.some.injEq, Prod.mk.injEq] at h
    obtain ⟨_, h2, h3⟩ := h
    rw [← h2, ← h3]; exact hrefl fs
  | cons c cs ih =>
    intro fs r fs2 ops hfn h
    unfold direach_loop at h
    cases hc : fn fs c with
    | none => rw [hc] at h; simp at h
    | some res =>
      obtain ⟨r1, fs1, ops1⟩ := res
      have hQ1 := hfn c (List.mem_cons_self _ _) fs r1 fs1 ops1 hc
      rw [hc] at h
      simp only at h
      by_cases hr : r1 ≠ GIT_SUCCESS
      · rw [if_pos hr] at h
        simp only [Option.some.injEq, Prod.mk.injEq] at h
        obtain ⟨_, h2, h3⟩ := h
        rw [← h2, ← h3]; exact hQ1
      · rw [if_neg hr] at h
        cases hrest : direach_loop fn fs1 cs with
        | none => rw [hrest] at h; simp at h
        | some res2 =>
          obtain ⟨r2, fs3, ops2⟩ := res2
          rw [hrest] at h
          simp only [Option.some.injEq, Prod.mk.injEq] at h
          obtain ⟨_, h2, h3⟩ := h
          rw [← h2, ← h3]
          exact htrans _ _ _ _ _ hQ1
            (ih fs1 r2 fs3 ops2 (fun c hc => hfn c (List.mem_cons_of_mem _ hc)) hrest)

/-- A property that holds of no step, composes, and holds of every `p_rmdir`
(and of every `p_unlink` when `force` is set) holds of
`_rmdir_recurs_foreach`. -/
theorem rmdir_foreach_inv (Q : FS → FS → List FsOp → Prop) (force : Bool)
    (hrefl : ∀ fs, Q fs fs [])
    (htrans : ∀ a b c t1 t2, Q a b t1 → Q b c t2 → Q a c (t1 ++ t2))
    (hrmdir : ∀ fs p, Q fs (p_rmdir fs p).2.1 (p_rmdir fs p).2.2)
    (hunlink : force = true → ∀ fs p, Q fs (p_unlink fs p).2.1 (p_unlink fs p).2.2) :
    ∀ (fuel : Nat) (fs : FS) (p : Path) (r : Int) (fs2 : FS) (ops : List FsOp),
      _rmdir_recurs_foreach fuel force fs p = some (r, fs2, ops) → Q fs fs2 ops := by
  intro fuel
  induction fuel with
  | zero => intro fs p r fs2 ops h; simp [_rmdir_recurs_foreach] at h
  | succ fuel ih =>
    intro fs p r fs2 ops h
    unfold _rmdir_recurs_foreach at h
    simp only at h
    by_cases hd : fs.isdir p = true
    · rw [if_pos hd] at h
      cases hde : git_path_direach (_rmdir_recurs_foreach fuel force) fs p with
      | none => rw [hde] at h; simp at h
      | some res =>
        obtain ⟨e1, fs1, ops1⟩ := res
        have hQ1 : Q fs fs1 ops1 :=
          direach_loop_inv Q _ hrefl htrans _ fs e1 fs1 ops1
            (fun c _ fs0 r0 fs3 ops3 hrun => ih fs0 c r0 fs3 ops3 hrun) hde
        rw [hde] at h
        simp only at h
        by_cases he : e1 < GIT_SUCCESS
        · rw [if_pos he] at h
          simp only [Option.some.injEq, Prod.mk.injEq] at h
          obtain ⟨_, h2, h3⟩ := h
          rw [← h2, ← h3]; exact hQ1
        · rw [if_neg he] at h
          simp only [Option.some.injEq, Prod.mk.injEq] at h
          obtain ⟨_, h2, h3⟩ := h
          rw [← h2, ← h3]
          exact htrans _ _ _ _ _ hQ1 (hrmdir fs1 p)
    · rw [if_neg hd] at h
      by_cases hf : force = true
      · rw [if_pos hf] at h
        simp only [Option.some.injEq] at h
        have := hunlink hf fs p
        rw [h] at this
        exact this
      · rw [if_neg hf] at h
        simp only [Option.some.injEq, Prod.mk.injEq] at h
        obtain ⟨_, h2, h3⟩ := h
        rw [← h2, ← h3]; exact hrefl fs

/-! ### What was removed, and in which order -/

theorem removed_refl (fs : FS) : Removed fs fs [] := by
  refine ⟨?_, rfl⟩
  simp

theorem removed_trans (a b c : FS) (t1 t2 : List FsOp)
    (h1 : Removed a b t1) (h2 : Removed b c t2) : Removed a c (t1 ++ t2) := by
  refine ⟨?_, h2.2.trans h1.2⟩
  rw [h2.1, h1.1, List.filter_filter]
  apply List.filter_congr
  intro e _
  simp only [List.map_append, List.mem_append, not_or, Bool.decide_and,
    Bool.and_comm]

theorem removed_remove (fs : FS) (p : Path) (op : FsOp) (h : op.path = p) :
    Removed fs (fs.remove p) [op] := by
  refine ⟨?_, rfl⟩
  unfold FS.remove
  simp only
  apply List.filter_congr
  intro e _
  simp [h]

theorem removed_rmdir (fs : FS) (p : Path) :
    Removed fs (p_rmdir fs p).2.1 (p_rmdir fs p).2.2 := by
  rcases p_rmdir_cases fs p with ⟨h, _⟩ | h
  · rw [h]; exact removed_remove fs p _ rfl
  · rw [h]; exact removed_refl fs

theorem removed_unlink (fs : FS) (p : Path) :
    Removed fs (p_unlink fs p).2.1 (p_unlink fs p).2.2 := by
  rcases p_unlink_cases fs p with ⟨h, _⟩ | h
  · rw [h]; exact removed_remove fs p _ rfl
  · rw [h]; exact removed_refl fs

theorem removed_mem (fs fs2 : FS) (ops : List FsOp) (h : Removed fs fs2 ops)
    (e : Path × Kind) (he : e ∈ fs2.entries) : e ∈ fs.entries := by
  rw [h.1] at he
  exact (List.mem_filter.mp he).1

theorem removed_lookup_outside (fs fs2 : FS) (ops : List FsOp) (h : Removed fs fs2 ops)
    (q : Path) (hq : q ∉ ops.map FsOp.path) : fs2.lookup q = fs.lookup q := by
  unfold FS.lookup
  by_cases h0 : q = []
  · simp [h0]
  · simp only [if_neg h0, h.1]
    exact lookup_filter_keep (fun k => decide (k ∉ ops.map FsOp.path)) q
      (by simpa using hq) fs.entries

theorem postOrder_trans (a b : FS) (t1 t2 : List FsOp) (hab : Removed a b t1)
    (h1 : PostOrder a t1) (h2 : PostOrder b t2) : PostOrder a (t1 ++ t2) := by
  intro u1 d u2 hsplit e he hpre hne
  rcases List.append_eq_append_iff.mp hsplit with ⟨a1, hu1, ht2⟩ | ⟨c1, ht1, hrest⟩
  · -- the removal of `d` is in the second part
    rw [hu1, List.map_append, List.mem_append]
    by_cases hin : e.1 ∈ t1.map FsOp.path
    · left; exact hin
    · right
      have heb : e ∈ b.entries := by
        rw [hab.1]
        exact List.mem_filter.mpr ⟨he, by simpa using hin⟩
      exact h2 a1 d u2 ht2 e heb hpre hne
  · cases c1 with
    | nil =>
      simp only [List.nil_append] at hrest
      simp only [List.append_nil] at ht1
      by_cases hin : e.1 ∈ t1.map FsOp.path
      · rw [← ht1]; exact hin
      · have heb : e ∈ b.entries := by
          rw [hab.1]
          exact List.mem_filter.mpr ⟨he, by simpa using hin⟩
        have := h2 [] d u2 hrest.symm e heb hpre hne
        simp at this
    | cons x c2 =>
      simp only [List.cons_append, List.cons.injEq] at hrest
      obtain ⟨hx, _⟩ := hrest
      rw [← hx] at ht1
      exact h1 u1 d c2 ht1 e he hpre hne

/-- The first invariant: the filesystem afterwards is the one before
without the entries removed, and the removals are in post-order. -/
theorem rmdir_foreach_postorder (force : Bool) (fuel : Nat) (fs : FS) (p : Path)
    (r : Int) (fs2 : FS) (ops : List FsOp)
    (h : _rmdir_recurs_foreach fuel force fs p = some (r, fs2, ops)) :
    Removed fs fs2 ops ∧ PostOrder fs ops := by
  refine rmdir_foreach_inv (fun a b t => Removed a b t ∧ PostOrder a t) force
    ?_ ?_ ?_ ?_ fuel fs p r fs2 ops h
  · intro a
    refine ⟨removed_refl a, ?_⟩
    intro t1 d t2 hs
    simp at hs
  · intro a b c t1 t2 h1 h2
    exact ⟨removed_trans a b c t1 t2 h1.1 h2.1, postOrder_trans a b t1 t2 h1.1 h1.2 h2.2⟩
  · intro a q
    refine ⟨removed_rmdir a q, ?_⟩
    rcases p_rmdir_cases a q with ⟨hs, _, _, hempty, _⟩ | hs
    · rw [hs]
      intro t1 d t2 hsplit e he hpre hne
      cases t1 with
      | nil =>
        simp only [List.nil_append, List.cons.injEq, FsOp.rmdir.injEq] at hsplit
        rw [← hsplit.1] at hpre hne
        exact absurd ((isEmptyAt_iff a q).mp hempty e he hpre) hne
      | cons x t => simp at hsplit
    · rw [hs]
      intro t1 d t2 hsplit
      simp at hsplit
  · intro _ a q
    refine ⟨removed_unlink a q, ?_⟩
    rcases p_unlink_cases a q with ⟨hs, _⟩ | hs
    · rw [hs]
      intro t1 d t2 hsplit
      cases t1 with
      | nil => simp at hsplit
      | cons x t => simp at hsplit
    · rw [hs]
      intro t1 d t2 hsplit
      simp at hsplit

theorem children_mem (fs : FS) (p c : Path) (h : c ∈ fs.children p) :
    c ∈ fs.entries.map Prod.fst ∧ c.length = p.length + 1 ∧ p <+: c := by
  unfold FS.children at h
  rw [List.mem_dedup, List.mem_filter] at h
  obtain ⟨hmem, hc⟩ := h
  simp only [ne_eq, decide_eq_true_eq] at hc
  obtain ⟨hne, hdl⟩ := hc
  refine ⟨hmem, ?_, ?_⟩
  · have := List.length_dropLast c
    rw [hdl] at this
    have hpos : 0 < c.length := List.length_pos.mpr hne
    omega
  · rw [← hdl]
    exact List.dropLast_prefix c

/-- The second invariant: everything removed lies at or below the path. -/
theorem rmdir_foreach_below (force : Bool) :
    ∀ (fuel : Nat) (fs : FS) (p : Path) (r : Int) (fs2 : FS) (ops : List FsOp),
      _rmdir_recurs_foreach fuel force fs p = some (r, fs2, ops) →
      ∀ op ∈ ops, p <+: op.path := by
  intro fuel
  induction fuel with
  | zero => intro fs p r fs2 ops h; simp [_rmdir_recurs_foreach] at h
  | succ fuel ih =>
    intro fs p r fs2 ops h
    unfold _rmdir_recurs_foreach at h
    simp only at h
    by_cases hd : fs.isdir p = true
    · rw [if_pos hd] at h
      cases hde : git_path_direach (_rmdir_recurs_foreach fuel force) fs p with
      | none => rw [hde] at h; simp at h
      | some res =>
        obtain ⟨e1, fs1, ops1⟩ := res
        have hQ1 : ∀ op ∈ ops1, p <+: op.path :=
          direach_loop_inv (fun _ _ t => ∀ op ∈ t, p <+: op.path) _
            (fun _ op hop => by simp at hop)
            (fun _ _ _ t1 t2 h1 h2 op hop => by
              rcases List.mem_append.mp hop with ho | ho
              · exact h1 op ho
              · exact h2 op ho)
            (fs.children p) fs e1 fs1 ops1
            (fun c hc fs0 r0 fs3 ops3 hrun op hop =>
              List.IsPrefix.trans (children_mem fs p c hc).2.2
                (ih fs0 c r0 fs3 ops3 hrun op hop)) hde
        rw [hde] at h
        simp only at h
        by_cases he : e1 < GIT_SUCCESS
        · rw [if_pos he] at h
          simp only [Option.some.injEq, Prod.mk.injEq] at h
          obtain ⟨_, _, h3⟩ := h
          rw [← h3]; exact hQ1
        · rw [if_neg he] at h
          simp only [Option.some.injEq, Prod.mk.injEq] at h
          obtain ⟨_, _, h3⟩ := h
          rw [← h3]
          intro op hop
          rcases List.mem_append.mp hop with ho | ho
          · exact hQ1 op ho
          · rcases p_rmdir_cases fs1 p with ⟨hs, _⟩ | hs
            · rw [hs] at ho
              simp only [List.mem_singleton] at ho
              rw [ho]; exact List.prefix_refl p
            · rw [hs] at ho; simp at ho
    · rw [if_neg hd] at h
      by_cases hf : force = true
      · rw [if_pos hf] at h
        simp only [Option.some.injEq] at h
        intro op hop
        rcases p_unlink_cases fs p with ⟨hs, _⟩ | hs
        · rw [hs] at h
          simp only [Prod.mk.injEq] at h
          rw [← h.2.2] at hop
          simp only [List.mem_singleton] at hop
          rw [hop]; exact List.prefix_refl p
        · rw [hs] at h
          simp only [Prod.mk.injEq] at h
          rw [← h.2.2] at hop; simp at hop
      · rw [if_neg hf] at h
        simp only [Option.some.injEq, Prod.mk.injEq] at h
        obtain ⟨_, _, h3⟩ := h
        rw [← h3]
        intro op hop; simp at hop

/-! ### The traversal returns -/

theorem length_le_foldr_max (e : Path × Kind) :
    ∀ l : List (Path × Kind), e ∈ l →
      e.1.length ≤ (l.map (fun x => x.1.length)).foldr max 0 := by
  intro l
  induction l with
  | nil => intro he; simp at he
  | cons x t ih =>
    intro he
    simp only [List.map_cons, List.foldr_cons]
    rcases List.mem_cons.mp he with h | h
    · rw [h]; exact Nat.le_max_left _ _
    · exact Nat.le_trans (ih h) (Nat.le_max_right _ _)

theorem length_le_depth (fs : FS) (e : Path × Kind) (he : e ∈ fs.entries) :
    e.1.length ≤ fs.depth :=
  length_le_foldr_max e fs.entries he

/-- The recursion returns as soon as the bound on its depth exceeds the
length of the longest path below the starting point. -/
theorem rmdir_foreach_total (force : Bool) :
    ∀ (fuel : Nat) (fs : FS) (p : Path), 1 ≤ fuel →
      (∀ e ∈ fs.entries, e.1.length < p.length + fuel) →
      ∃ r, _rmdir_recurs_foreach fuel force fs p = some r := by
  intro fuel
  induction fuel with
  | zero => intro fs p h; omega
  | succ fuel ih =>
    intro fs p _ hb
    unfold _rmdir_recurs_foreach
    simp only
    by_cases hd : fs.isdir p = true
    · rw [if_pos hd]
      have hloop : ∃ r, git_path_direach (_rmdir_recurs_foreach fuel force) fs p
          = some r := by
        unfold git_path_direach
        cases hcs : fs.children p with
        | nil => exact ⟨_, rfl⟩
        | cons c cs =>
          have hc := children_mem fs p c (by rw [hcs]; exact List.mem_cons_self _ _)
          obtain ⟨e, he, hec⟩ := List.mem_map.mp hc.1
          have hlen := hb e he
          rw [hec, hc.2.1] at hlen
          have hfuel : 1 ≤ fuel := by omega
          rw [← hcs]
          -- every child is one name longer than `p`
          have key : ∀ (l : List Path), (∀ c ∈ l, c ∈ fs.children p) →
              ∀ fs0 : FS, (∀ e ∈ fs0.entries, e.1.length < p.length + (fuel + 1)) →
              ∃ r, direach_loop (_rmdir_recurs_foreach fuel force) fs0 l = some r := by
            intro l
            induction l with
            | nil => intro _ fs0 _; exact ⟨_, rfl⟩
            | cons c2 l2 ihl =>
              intro hall fs0 hb0
              have hc2 := children_mem fs p c2 (hall c2 (List.mem_cons_self _ _))
              obtain ⟨⟨r1, fs1, ops1⟩, hr⟩ := ih fs0 c2 hfuel (by
                intro e he
                have := hb0 e he
                rw [hc2.2.1]; omega)
              unfold direach_loop
              rw [hr]
              simp only
              by_cases hne : r1 ≠ GIT_SUCCESS
              · rw [if_pos hne]; exact ⟨_, rfl⟩
              · rw [if_neg hne]
                have hrem := (rmdir_foreach_postorder force fuel fs0 c2 r1 fs1 ops1 hr).1
                obtain ⟨⟨r2, fs2, ops2⟩, hr2⟩ :=
                  ihl (fun c hc => hall c (List.mem_cons_of_mem _ hc)) fs1
                    (fun e he => hb0 e (removed_mem fs0 fs1 ops1 hrem e he))
                rw [hr2]; exact ⟨_, rfl⟩
          exact key (fs.children p) (fun c hc => hc) fs hb
      obtain ⟨⟨e1, fs1, ops1⟩, hr⟩ := hloop
      rw [hr]
      simp only
      by_cases he : e1 < GIT_SUCCESS
      · rw [if_pos he]; exact ⟨_, rfl⟩
      · rw [if_neg he]; exact ⟨_, rfl⟩
    · rw [if_neg hd]
      by_cases hf : force = true
      · rw [if_pos hf]; exact ⟨_, rfl⟩
      · rw [if_neg hf]; exact ⟨_, rfl⟩

theorem rmdir_r_total (fs : FS) (path : List Char) (force : Bool) (fuel : Nat)
    (h : fs.depth < fuel) : ∃ r, git_futils_rmdir_r fuel fs path force = some r := by
  unfold git_futils_rmdir_r
  simp only [git_buf_sets, if_true]
  apply rmdir_foreach_total force fuel fs (components path) (by omega)
  intro e he
  have := length_le_depth fs e he
  omega

/-! ### Without `force` -/

/-- Without `force` only directories are removed, and no path that is, or
has below it, an entry that is not a directory changes. -/
theorem rmdir_foreach_noforce (fuel : Nat) (fs : FS) (p : Path)
    (r : Int) (fs2 : FS) (ops : List FsOp)
    (h : _rmdir_recurs_foreach fuel false fs p = some (r, fs2, ops)) :
    (∀ q, HoldsFile fs q → fs2.lookup q = fs.lookup q) ∧
      (∀ op ∈ ops, ∃ d, op = FsOp.rmdir d) := by
  refine rmdir_foreach_inv
    (fun a b t => (∀ q, HoldsFile a q → b.lookup q = a.lookup q) ∧
      (∀ op ∈ t, ∃ d, op = FsOp.rmdir d)) false ?_ ?_ ?_ ?_ fuel fs p r fs2 ops h
  · intro a
    exact ⟨fun _ _ => rfl, fun op hop => by simp at hop⟩
  · intro a b c t1 t2 h1 h2
    refine ⟨?_, ?_⟩
    · intro q hq
      obtain ⟨f, hqf, hf⟩ := hq
      have hfb : b.lookup f = some .file := by
        rw [h1.1 f ⟨f, List.prefix_refl f, hf⟩]; exact hf
      rw [h2.1 q ⟨f, hqf, hfb⟩, h1.1 q ⟨f, hqf, hf⟩]
    · intro op hop
      rcases List.mem_append.mp hop with ho | ho
      · exact h1.2 op ho
      · exact h2.2 op ho
  · intro a d
    rcases p_rmdir_cases a d with ⟨hs, hdir, _, hempty, _⟩ | hs
    · rw [hs]
      refine ⟨?_, fun op hop => ⟨d, by simpa using hop⟩⟩
      intro q hq
      obtain ⟨f, hqf, hf⟩ := hq
      apply lookup_remove_ne
      intro hqd
      rw [hqd] at hqf
      have hfd : f = d :=
        (isEmptyAt_iff a d).mp hempty _ (lookup_file_mem a f hf) hqf
      rw [hfd, hdir] at hf
      cases hf
    · rw [hs]
      exact ⟨fun _ _ => rfl, fun op hop => by simp at hop⟩
  · intro hff
    cases hff

/-- C8 as stated fails: `/a` holds one entry, the empty directory `/a/b`.
Without `force` the call returns `GIT_SUCCESS`, having removed `/a/b` and
then `/a`; nothing is left. -/
theorem rmdir_r_noforce_removes_directories :
    git_futils_rmdir_r 3 ⟨[([['a']], .dir), ([['a'], ['b']], .dir)], []⟩
        ['/', 'a'] false
      = some (GIT_SUCCESS, ⟨[], []⟩, [.rmdir [['a'], ['b']], .rmdir [['a']]]) := by
  decide

/-- C8, amended.  When the target is a directory that has, at some depth,
an entry `f` that is not a directory, `git_futils_rmdir_r` without `force`
returns (for every bound above the depth of the tree) and its result is an
error; only directories were removed; and every path that is, or has below
it, an entry that is not a directory is as before: no such entry was
removed, nor any directory on the way to one, the target included. -/
theorem rmdir_r_noforce_keeps_files (fs : FS) (path : List Char) (f : Path)
    (hdir : fs.lookup (components path) = some .dir)
    (hbelow : components path <+: f)
    (hfile : fs.lookup f = some .file) :
    (∀ fuel, fs.depth < fuel →
      ∃ r, git_futils_rmdir_r fuel fs path false = some r) ∧
    (∀ fuel ret fs2 ops,
      git_futils_rmdir_r fuel fs path false = some (ret, fs2, ops) →
      ret < GIT_SUCCESS ∧
        (∀ op ∈ ops, ∃ d, op = FsOp.rmdir d) ∧
        (∀ q, HoldsFile fs q → fs2.lookup q = fs.lookup q) ∧
        fs2.lookup f = some .file ∧
        fs2.lookup (components path) = some .dir) := by
  refine ⟨fun fuel h => rmdir_r_total fs path false fuel h, ?_⟩
  intro fuel ret fs2 ops hrun
  unfold git_futils_rmdir_r at hrun
  simp only [git_buf_sets, if_true] at hrun
  have hinv := rmdir_foreach_noforce fuel fs (components path) ret fs2 ops hrun
  refine ⟨?_, hinv.2, hinv.1, ?_, ?_⟩
  · -- the result
    cases fuel with
    | zero => simp [_rmdir_recurs_foreach] at hrun
    | succ fuel =>
      unfold _rmdir_recurs_foreach at hrun
      simp only at hrun
      have hd : fs.isdir (components path) = true := by
        simp [FS.isdir, hdir]
      rw [if_pos hd] at hrun
      cases hde : git_path_direach (_rmdir_recurs_foreach fuel false) fs
          (components path) with
      | none => rw [hde] at hrun; simp at hrun
      | some res =>
        obtain ⟨e1, fs1, ops1⟩ := res
        rw [hde] at hrun
        simp only at hrun
        by_cases he : e1 < GIT_SUCCESS
        · rw [if_pos he] at hrun
          simp only [Option.some.injEq, Prod.mk.injEq, git__rethrow] at hrun
          rw [← hrun.1]; exact he
        · rw [if_neg he] at hrun
          simp only [Option.some.injEq, Prod.mk.injEq] at hrun
          -- the file is still there, so the directory is not empty
          have hkeep : ∀ q, HoldsFile fs q → fs1.lookup q = fs.lookup q :=
            (direach_loop_inv
              (fun a b t => (∀ q, HoldsFile a q → b.lookup q = a.lookup q)) _
              (fun _ _ _ => rfl)
              (fun a b c t1 t2 h1 h2 q hq => by
                obtain ⟨g, hqg, hg⟩ := hq
                have hgb : b.lookup g = some .file := by
                  rw [h1 g ⟨g, List.prefix_refl g, hg⟩]; exact hg
                rw [h2 q ⟨g, hqg, hgb⟩, h1 q ⟨g, hqg, hg⟩])
              (fs.children (components path)) fs e1 fs1 ops1
              (fun c _ fs0 r0 fs3 ops3 hr =>
                (rmdir_foreach_noforce fuel fs0 c r0 fs3 ops3 hr).1) hde)
          have hf1 : fs1.lookup f = some .file := by
            rw [hkeep f ⟨f, List.prefix_refl f, hfile⟩]; exact hfile
          have hd1 : fs1.lookup (components path) = some .dir := by
            rw [hkeep _ ⟨f, hbelow, hfile⟩]; exact hdir
          rcases p_rmdir_cases fs1 (components path) with ⟨_, _, _, hempty, _⟩ | hs
          · have hfd : f = components path :=
              (isEmptyAt_iff fs1 _).mp hempty _ (lookup_file_mem fs1 f hf1) hbelow
            rw [hfd, hd1] at hf1
            cases hf1
          · rw [hs] at hrun
            rw [← hrun.1]
            show (-1 : Int) < GIT_SUCCESS
            decide
  · rw [hinv.1 f ⟨f, List.prefix_refl f, hfile⟩]; exact hfile
  · rw [hinv.1 _ ⟨f, hbelow, hfile⟩]; exact hdir

/-- Witness for C8 (amended): `/a` holds the empty directory `/a/b`, listed
first, and the file `/a/f`.  The call removes `/a/b`, fails on `/a` and
leaves `/a/f` and `/a` in place. -/
theorem rmdir_r_noforce_keeps_files_witness :
    git_futils_rmdir_r 3
        ⟨[([['a']], .dir), ([['a'], ['b']], .dir), ([['a'], ['f']], .file)], []⟩
        ['/', 'a'] false
      = some (-1, ⟨[([['a']], .dir), ([['a'], ['f']], .file)], []⟩,
          [.rmdir [['a'], ['b']]]) ∧
    ((-1 : Int) < GIT_SUCCESS ∧
      (∀ op ∈ [FsOp.rmdir [['a'], ['b']]], ∃ d, op = FsOp.rmdir d) ∧
      (∀ q, HoldsFile
          ⟨[([['a']], .dir), ([['a'], ['b']], .dir), ([['a'], ['f']], .file)], []⟩ q →
        FS.lookup ⟨[([['a']], .dir), ([['a'], ['f']], .file)], []⟩ q = FS.lookup
          ⟨[([['a']], .dir), ([['a'], ['b']], .dir), ([['a'], ['f']], .file)], []⟩ q) ∧
      FS.lookup ⟨[([['a']], .dir), ([['a'], ['f']], .file)], []⟩ [['a'], ['f']]
        = some .file ∧
      FS.lookup ⟨[([['a']], .dir), ([['a'], ['f']], .file)], []⟩ (components ['/', 'a'])
        = some .dir) :=
  ⟨by decide,
    (rmdir_r_noforce_keeps_files
      ⟨[([['a']], .dir), ([['a'], ['b']], .dir), ([['a'], ['f']], .file)], []⟩
      ['/', 'a'] [['a'], ['f']] (by decide) (by decide) (by decide)).2 3 (-1)
      ⟨[([['a']], .dir), ([['a'], ['f']], .file)], []⟩ [.rmdir [['a'], ['b']]]
      (by decide)⟩

/-! ### With `force` -/

/-- C9. For every directory tree and every target that is a directory in
it, `git_futils_rmdir_r` with `force` returns for every bound above the
depth of the tree, and if it returns `GIT_SUCCESS` then afterwards nothing
exists at or below the target, every path that is not at or below the target
names what it named before, and the removals are in post-order: each
directory was removed after every entry the tree had below it. -/
theorem rmdir_r_force_removes_subtree (fs : FS) (path : List Char)
    (hdir : fs.lookup (components path) = some .dir) :
    (∀ fuel, fs.depth < fuel →
      ∃ r, git_futils_rmdir_r fuel fs path true = some r) ∧
    (∀ fuel fs2 ops,
      git_futils_rmdir_r fuel fs path true = some (GIT_SUCCESS, fs2, ops) →
      (∀ q, components path <+: q → fs2.lookup q = none) ∧
        (∀ q, ¬ components path <+: q → fs2.lookup q = fs.lookup q) ∧
        PostOrder fs ops) := by
  refine ⟨fun fuel h => rmdir_r_total fs path true fuel h, ?_⟩
  intro fuel fs2 ops hrun
  unfold git_futils_rmdir_r at hrun
  simp only [git_buf_sets, if_true] at hrun
  have hpo := rmdir_foreach_postorder true fuel fs (components path) _ fs2 ops hrun
  have hbelow := rmdir_foreach_below true fuel fs (components path) _ fs2 ops hrun
  refine ⟨?_, ?_, hpo.2⟩
  · -- nothing is left at or below the target
    cases fuel with
    | zero => simp [_rmdir_recurs_foreach] at hrun
    | succ fuel =>
      unfold _rmdir_recurs_foreach at hrun
      simp only at hrun
      have hd : fs.isdir (components path) = true := by
        simp [FS.isdir, hdir]
      rw [if_pos hd] at hrun
      cases hde : git_path_direach (_rmdir_recurs_foreach fuel true) fs
          (components path) with
      | none => rw [hde] at hrun; simp at hrun
      | some res =>
        obtain ⟨e1, fs1, ops1⟩ := res
        rw [hde] at hrun
        simp only at hrun
        by_cases he : e1 < GIT_SUCCESS
        · rw [if_pos he] at hrun
          simp only [Option.some.injEq, Prod.mk.injEq, git__rethrow] at hrun
          rw [hrun.1] at he
          exact absurd he (by decide)
        · rw [if_neg he] at hrun
          simp only [Option.some.injEq, Prod.mk.injEq] at hrun
          rcases p_rmdir_cases fs1 (components path) with
            ⟨hs, _, hne, hempty, _⟩ | hs
          · rw [hs] at hrun
            simp only at hrun
            intro q hq
            rw [← hrun.2.1]
            by_cases hqt : q = components path
            · rw [hqt]; exact lookup_remove_self fs1 _ hne
            · rw [lookup_remove_ne fs1 _ q hqt]
              apply lookup_none_of_not_listed
              · intro hq0
                rw [hq0] at hq
                exact hne (List.prefix_nil.mp hq)
              · intro e hmem heq
                have := (isEmptyAt_iff fs1 _).mp hempty e hmem (by rw [heq]; exact hq)
                exact hqt (heq.symm.trans this)
          · rw [hs] at hrun
            have h1 := hrun.1
            simp [GIT_SUCCESS] at h1
  · -- the rest of the tree is as before
    intro q hq
    apply removed_lookup_outside fs fs2 ops hpo.1
    intro hmem
    obtain ⟨op, hop, hpath⟩ := List.mem_map.mp hmem
    exact hq (hpath ▸ hbelow op hop)

/-- Witness for C9: `/a` holds the directory `/a/b`, which holds the file
`/a/b/f`; `/c` lies outside. -/
theorem rmdir_r_force_removes_subtree_witness :
    git_futils_rmdir_r 4
        ⟨[([['a']], .dir), ([['a'], ['b']], .dir), ([['a'], ['b'], ['f']], .file),
          ([['c']], .file)], []⟩ ['/', 'a'] true
      = some (GIT_SUCCESS, ⟨[([['c']], .file)], []⟩,
          [.unlink [['a'], ['b'], ['f']], .rmdir [['a'], ['b']], .rmdir [['a']]]) ∧
    PostOrder
      ⟨[([['a']], .dir), ([['a'], ['b']], .dir), ([['a'], ['b'], ['f']], .file),
        ([['c']], .file)], []⟩
      [.unlink [['a'], ['b'], ['f']], .rmdir [['a'], ['b']], .rmdir [['a']]] :=
  ⟨by decide,
    ((rmdir_r_force_removes_subtree
      ⟨[([['a']], .dir), ([['a'], ['b']], .dir), ([['a'], ['b'], ['f']], .file),
        ([['c']], .file)], []⟩ ['/', 'a'] (by decide)).2 4 ⟨[([['c']], .file)], []⟩
      [.unlink [['a'], ['b'], ['f']], .rmdir [['a'], ['b']], .rmdir [['a']]]
      (by decide)).2.2⟩
end Libgit2
